import Mathlib

/-!
Verification development for the subtitle-segment core of an audio/transcript
editor written in TypeScript.

Embedding conventions:
* A JavaScript string is modelled as `Str := List Char`; the JS string
  methods used by the source (`split`, `trim`, `padStart`, concatenation,
  template literals) are modelled by executable functions below with the
  semantics of the corresponding JS builtins on the character sets that
  actually occur (ASCII; `trim` is modelled on the ASCII whitespace
  characters recognised by `Char.isWhitespace`).
* A JavaScript number is modelled as `ℚ` (an exact idealisation of the
  float arithmetic of the source).  Where the source can produce `NaN`
  (via `parseInt`), a value is modelled as `JVal := Option ℚ` with `none`
  playing the role of `NaN`; arithmetic on `JVal` propagates `none` the
  way float arithmetic propagates `NaN`.
* A thrown JS exception is modelled by an `Option` result at the function
  that can throw (`timestampToSeconds`) and is propagated by its callers.
* `parseInt` is modelled for decimal input (optional leading whitespace,
  optional sign, leading digit run, `NaN` when no digits); the hexadecimal
  `0x` form of the builtin never occurs in the inputs handled here.
* `Array.prototype.sort` with comparator `(a, b) => a.x - b.x` is a stable
  ascending sort; it is modelled by a stable insertion sort (stable sorts
  of a list under a total preorder coincide).
-/

abbrev Str := List Char

/-- Model of `String.prototype.trim`. -/
def trimStr (s : Str) : Str :=
  ((s.dropWhile Char.isWhitespace).reverse.dropWhile Char.isWhitespace).reverse

/-- Model of `String.prototype.split` with a single-character separator:
this is exactly `List.splitOn` on the character list. -/
def splitOnChar (c : Char) (s : Str) : List Str := s.splitOn c

/-- Model of `String.prototype.split(" --> ")`, the only multi-character
split in the source. -/
def splitOnArrow : Str → List Str
  | ' ' :: '-' :: '-' :: '>' :: ' ' :: rest => [] :: splitOnArrow rest
  | c :: rest =>
    let r := splitOnArrow rest
    (c :: r.headD []) :: r.tail
  | [] => [[]]

/-- The ` --> ` delimiter of the SubRip timestamp line. -/
def arrowSep : Str := [' ', '-', '-', '>', ' ']

/-- Decimal digit characters of a natural number, with a structural fuel so
that the kernel can evaluate it (the fuel `n+1` always suffices). -/
def natToStrAux : ℕ → ℕ → Str
  | 0, _ => []
  | fuel + 1, n =>
    if n < 10 then [Nat.digitChar n]
    else natToStrAux fuel (n / 10) ++ [Nat.digitChar (n % 10)]

/-- Model of `Number.prototype.toString` on non-negative integer values. -/
def natToStr (n : ℕ) : Str := natToStrAux (n + 1) n

/-- Model of `Number.prototype.toString` on integer values. -/
def intToStr (i : ℤ) : Str :=
  if i < 0 then '-' :: natToStr i.natAbs else natToStr i.toNat

/-- Model of `String.prototype.padStart(k, '0')`. -/
def padStartZeros (k : ℕ) (s : Str) : Str :=
  List.replicate (k - s.length) '0' ++ s

/-- Numeric value of a run of decimal digit characters. -/
def digitsToNat (ds : Str) : ℕ :=
  ds.foldl (fun a c => 10 * a + (c.toNat - '0'.toNat)) 0

/-- A JavaScript number that may be `NaN` (`none` models `NaN`). -/
abbrev JVal := Option ℚ

/-- `NaN`-propagating addition. -/
def jAdd : JVal → JVal → JVal
  | some a, some b => some (a + b)
  | _, _ => none

/-- `NaN`-propagating multiplication by a (non-`NaN`) constant. -/
def jMulC (v : JVal) (c : ℚ) : JVal := v.map (· * c)

/-- `NaN`-propagating division by a (non-zero, non-`NaN`) constant. -/
def jDivC (v : JVal) (c : ℚ) : JVal := v.map (· / c)

/-- Leading decimal digit run of a string, `none` when there is none. -/
def jsParseDigits (r : Str) : Option ℕ :=
  let ds := r.takeWhile Char.isDigit
  if ds.isEmpty then none else some (digitsToNat ds)

/-- Model of the `parseInt` builtin on decimal input: skip leading
whitespace, accept an optional sign, read the leading digit run; `NaN`
(here `none`) when no digits follow. -/
def jsParseInt (s : Str) : JVal :=
  match s.dropWhile Char.isWhitespace with
  | [] => none
  | c :: r =>
    if c = '-' then (jsParseDigits r).map (fun n => -(n : ℚ))
    else if c = '+' then (jsParseDigits r).map (fun n => (n : ℚ))
    else (jsParseDigits (c :: r)).map (fun n => (n : ℚ))

/-- `timestampToSeconds` from `srtParser.ts`.  The source reads `parts[2]`
unconditionally, so an input with fewer than 3 colon-fields makes
`undefined.split` throw — modelled by the outer `none`.  A missing comma in
the sub-second field makes `parseInt(secondsParts[1])` evaluate to `NaN`
(`parseInt` of `undefined`), modelled by an inner `none`. -/
def timestampToSeconds (timestamp : Str) : Option JVal :=
  match splitOnChar ':' timestamp with
  | p0 :: p1 :: p2 :: _ =>
    let secondsParts := splitOnChar ',' p2
    let hours := jsParseInt p0
    let minutes := jsParseInt p1
    let seconds := jsParseInt (secondsParts.headD [])
    let milliseconds :=
      match secondsParts.get? 1 with
      | some t => jsParseInt t
      | none => none
    some (jAdd (jAdd (jAdd (jMulC hours 3600) (jMulC minutes 60)) seconds)
      (jDivC milliseconds 1000))
  | _ => none

/-- A segment as produced by the parser: each numeric field is a `JVal`
because `parseInt`/`timestampToSeconds` can produce `NaN`. -/
structure ParsedSeg where
  id : JVal
  startTime : JVal
  endTime : JVal
  text : Str
deriving DecidableEq, Repr

/-- The line-scanning loop of `parseSRT`, acting on the list of lines.
Each iteration of the source's `while` loop advances the index by at least
one, which is mirrored here by recursing on strict suffixes.  `none`
models the `TypeError` thrown out of `timestampToSeconds`. -/
def parseBlocks : List Str → Option (List ParsedSeg)
  | [] => some []
  | idLine :: rest =>
    if trimStr idLine = [] then
      parseBlocks rest
    else
      match rest with
      | [] => some []
      | tsLine :: rest2 =>
        let timestamps := splitOnArrow tsLine
        if timestamps.length = 2 then
          match timestampToSeconds (timestamps.headD []),
              timestampToSeconds (timestamps.getD 1 []) with
          | some startTime, some endTime =>
            let textLines := rest2.takeWhile (fun l => !(trimStr l).isEmpty)
            let rest3 := rest2.dropWhile (fun l => !(trimStr l).isEmpty)
            (parseBlocks rest3).map
              (fun tl =>
                ⟨jsParseInt idLine, startTime, endTime,
                  List.intercalate ['\n'] textLines⟩ :: tl)
          | _, _ => none
        else
          parseBlocks (rest2.drop 1)
termination_by l => l.length
decreasing_by
  · simp
  · simp
    have h := (@List.dropWhile_sublist _ rest2
      (fun l => !(trimStr l).isEmpty)).length_le
    omega
  · simp [List.length_drop]
    omega

/-- `parseSRT` from `srtParser.ts`. -/
def parseSRT (srtContent : Str) : Option (List ParsedSeg) :=
  parseBlocks (splitOnChar '\n' (trimStr srtContent))

/-- The editor-side segment record (`SubtitleSegment`).  All numeric fields
are plain numbers here; the editor operations are applied to segment lists
whose fields are not `NaN`. -/
structure Segment where
  id : ℚ
  startTime : ℚ
  endTime : ℚ
  text : Str
deriving DecidableEq, Repr, Inhabited

/-- Truncation-free model of the JS `%` operator on the non-negative
operands the source feeds it (for `a ≥ 0`, `b > 0` the JS `%` agrees with
`a - b * ⌊a / b⌋`). -/
def jsMod (a b : ℚ) : ℚ := a - b * ⌊a / b⌋

/-- `formatSRTTimestamp` from `srtParser.ts`. -/
def formatSRTTimestamp (seconds : ℚ) : Str :=
  let hours := ⌊seconds / 3600⌋
  let minutes := ⌊jsMod seconds 3600 / 60⌋
  let secs := ⌊jsMod seconds 60⌋
  let milliseconds := ⌊jsMod seconds 1 * 1000⌋
  padStartZeros 2 (intToStr hours) ++ ':' ::
    (padStartZeros 2 (intToStr minutes) ++ ':' ::
      (padStartZeros 2 (intToStr secs) ++ ',' ::
        padStartZeros 3 (intToStr milliseconds)))

/-- The block emitted by `segmentsToSRT` for the segment at (0-based)
position `i`, followed by the blocks of the remaining segments. -/
def srtBlocks : ℕ → List Segment → Str
  | _, [] => []
  | i, s :: rest =>
    natToStr (i + 1) ++ '\n' ::
      (formatSRTTimestamp s.startTime ++ arrowSep ++
        formatSRTTimestamp s.endTime ++ '\n' ::
        (s.text ++ '\n' :: '\n' :: srtBlocks (i + 1) rest))

/-- `segmentsToSRT` from `srtParser.ts`: drops tombstoned (blank-text)
segments, renumbers from 1, and emits one block per surviving segment. -/
def segmentsToSRT (segments : List Segment) : Str :=
  srtBlocks 0 (segments.filter (fun s => !(trimStr s.text).isEmpty))

/-- `findCurrentSegment` as it appears in the first snapshot of
`srtParser.ts`: the first segment whose closed interval contains the
playback time. -/
def findCurrentSegment (segments : List Segment) (currentTime : ℚ) :
    Option Segment :=
  match segments with
  | [] => none
  | s :: rest =>
    if s.startTime ≤ currentTime ∧ currentTime ≤ s.endTime then some s
    else findCurrentSegment rest currentTime

/-- First pass of the second-snapshot `findCurrentSegment`: the first
segment whose interval widened by the 0.1 s tolerance contains the time. -/
def findWithTolerance (segments : List Segment) (currentTime : ℚ) :
    Option Segment :=
  match segments with
  | [] => none
  | s :: rest =>
    if s.startTime - 1/10 ≤ currentTime ∧ currentTime ≤ s.endTime + 1/10 then
      some s
    else findWithTolerance rest currentTime

/-- Distance from a playback time to a segment's interval, as computed by
the closest-segment fallback loop. -/
def segDistance (s : Segment) (currentTime : ℚ) : ℚ :=
  if currentTime < s.startTime then s.startTime - currentTime
  else if currentTime > s.endTime then currentTime - s.endTime
  else 0

/-- The closest-segment fallback loop of the second-snapshot
`findCurrentSegment`: `none` plays the role of the initial
`closestDistance = Infinity`, and the strict `<` update keeps the earliest
of equally-close segments. -/
def closestLoop (currentTime : ℚ) (acc : Option (Segment × ℚ)) :
    List Segment → Option (Segment × ℚ)
  | [] => acc
  | s :: rest =>
    let d := segDistance s currentTime
    match acc with
    | none => closestLoop currentTime (some (s, d)) rest
    | some (_, best) =>
      if d < best then closestLoop currentTime (some (s, d)) rest
      else closestLoop currentTime acc rest

/-- `findCurrentSegment` as it appears in the second snapshot of
`srtParser.ts` (the variant commented `CRITICAL FIX`): a ±0.1 s tolerant
first pass, then the nearest segment within 5 s, else `null`. -/
def findCurrentSegmentFixed (segments : List Segment) (currentTime : ℚ) :
    Option Segment :=
  match findWithTolerance segments currentTime with
  | some s => some s
  | none =>
    match closestLoop currentTime none segments with
    | some (s, d) => if d ≤ 5 then some s else none
    | none => none

/-- The trailing `.map((seg, index) => ({ ...seg, id: index + 1 }))` of the
editor operations, starting from 0-based position `i`. -/
def reindexFrom (i : ℕ) : List Segment → List Segment
  | [] => []
  | s :: rest => { s with id := ((i + 1 : ℕ) : ℚ) } :: reindexFrom (i + 1) rest

/-- Stable ascending insertion into a list sorted by `startTime`; the
element being inserted precedes the later-listed elements with an equal
key, matching the stability of `Array.prototype.sort`. -/
def insertByStart (s : Segment) : List Segment → List Segment
  | [] => [s]
  | t :: rest =>
    if t.startTime < s.startTime then t :: insertByStart s rest
    else s :: t :: rest

/-- Model of `newSegments.sort((a, b) => a.startTime - b.startTime)`:
a stable ascending sort by `startTime`. -/
def sortByStart : List Segment → List Segment
  | [] => []
  | s :: rest => insertByStart s (sortByStart rest)

/-- Ascending insertion for numbers. -/
def insertQ (x : ℚ) : List ℚ → List ℚ
  | [] => [x]
  | y :: rest => if y < x then y :: insertQ x rest else x :: y :: rest

/-- Model of `[...ids].sort((a, b) => a - b)`: ascending numeric sort. -/
def sortQ : List ℚ → List ℚ
  | [] => []
  | x :: rest => insertQ x (sortQ rest)

/-- `mergeSegments` from `srtParser.ts`. -/
def mergeSegments (segments : List Segment) (segmentIdsToMerge : List ℚ) :
    List Segment :=
  if segmentIdsToMerge.length < 2 then segments
  else
    let sortedIds := sortQ segmentIdsToMerge
    let segmentsToMerge :=
      segments.filter (fun seg => decide (seg.id ∈ sortedIds))
    if segmentsToMerge.length < 2 then segments
    else
      let firstSegment := segmentsToMerge.headD default
      let lastSegment := segmentsToMerge.getLastD default
      let mergedSegment : Segment :=
        ⟨firstSegment.id, firstSegment.startTime, lastSegment.endTime,
          List.intercalate [' '] (segmentsToMerge.map (·.text))⟩
      let newSegments :=
        segments.filter (fun seg => !decide (seg.id ∈ sortedIds)) ++
          [mergedSegment]
      reindexFrom 0 (sortByStart newSegments)

/-- `seg.id === segmentId` lookup shared by the editor operations. -/
def findSegIdx (segments : List Segment) (segmentId : ℚ) : Option ℕ :=
  segments.findIdx? (fun seg => decide (seg.id = segmentId))

/-- Truthiness of an optional JS string: `undefined` and `""` are falsy. -/
def jsFalsyStr : Option Str → Bool
  | none => true
  | some s => s.isEmpty

/-- `a || b` on an optional JS string against a string default. -/
def jsOrStr (a : Option Str) (b : Str) : Str :=
  if jsFalsyStr a then b else a.getD []

/-- `splitSegment` from `srtParser.ts`.  The optional text arguments model
the `firstText?`/`secondText?` parameters (`none` is `undefined`). -/
def splitSegment (segments : List Segment) (segmentId : ℚ) (splitTime : ℚ)
    (firstText secondText : Option Str) : List Segment :=
  match findSegIdx segments segmentId with
  | none => segments
  | some segmentIndex =>
    let originalSegment := segments.getD segmentIndex default
    if splitTime ≤ originalSegment.startTime ∨
        originalSegment.endTime ≤ splitTime then
      segments
    else
      let parts :=
        if jsFalsyStr firstText || jsFalsyStr secondText then
          let words := splitOnChar ' ' originalSegment.text
          let midPoint := words.length / 2
          (jsOrStr firstText (List.intercalate [' '] (words.take midPoint)),
            jsOrStr secondText (List.intercalate [' '] (words.drop midPoint)))
        else
          (firstText.getD [], secondText.getD [])
      let firstSegment : Segment :=
        ⟨originalSegment.id, originalSegment.startTime, splitTime, parts.1⟩
      let secondSegment : Segment :=
        ⟨originalSegment.id + 1, splitTime, originalSegment.endTime, parts.2⟩
      reindexFrom 0
        (segments.take segmentIndex ++ firstSegment :: secondSegment ::
          segments.drop (segmentIndex + 1))

/-- `updateSegmentTiming` from `srtParser.ts` (the `FIXED VERSION`). -/
def updateSegmentTiming (segments : List Segment) (segmentId : ℚ)
    (newEndTime : ℚ) : List Segment :=
  match findSegIdx segments segmentId with
  | none => segments
  | some segmentIndex =>
    let n1 := segments.set segmentIndex
      { segments.getD segmentIndex default with endTime := newEndTime }
    let n2 :=
      if segmentIndex + 1 < n1.length then
        n1.set (segmentIndex + 1)
          { n1.getD (segmentIndex + 1) default with startTime := newEndTime }
      else n1
    if segmentIndex = 0 then
      n2.set 0 { n2.getD 0 default with startTime := 0 }
    else n2

/-- `deleteSegment` from `srtParser.ts`. -/
def deleteSegment (segments : List Segment) (segmentId : ℚ) : List Segment :=
  match findSegIdx segments segmentId with
  | none => segments
  | some segmentIndex =>
    let newSegments := segments.take segmentIndex ++
      segments.drop (segmentIndex + 1)
    let pinned :=
      if segmentIndex = 0 ∧ 0 < newSegments.length then
        newSegments.set 0 { newSegments.getD 0 default with startTime := 0 }
      else newSegments
    reindexFrom 0 pinned

/-- The `position` argument of `addSegment`. -/
inductive InsertPos where
  | beginning
  | atEnd
  | at (i : ℤ)
deriving DecidableEq, Repr

/-- `addSegment` from `srtParser.ts`. -/
def addSegment (segments : List Segment) (position : InsertPos)
    (text : Str) (duration : ℚ) : List Segment :=
  match position with
  | .beginning =>
    let newEndTime :=
      match segments.head? with
      | some firstSegment => min duration firstSegment.startTime
      | none => duration
    let newSegment : Segment := ⟨1, 0, newEndTime, text⟩
    let adjusted :=
      match segments.head? with
      | some firstSegment =>
        segments.set 0 { firstSegment with startTime := newEndTime }
      | none => segments
    reindexFrom 0 (newSegment :: adjusted)
  | .atEnd =>
    let newStartTime :=
      match segments.getLast? with
      | some lastSegment => lastSegment.endTime
      | none => 0
    let newSegment : Segment :=
      ⟨(segments.length : ℚ) + 1, newStartTime, newStartTime + duration, text⟩
    reindexFrom 0 (segments ++ [newSegment])
  | .at position =>
    let insertIndex := (max 0 (min position (segments.length : ℤ))).toNat
    let prevSegment :=
      if insertIndex = 0 then none else segments.get? (insertIndex - 1)
    let nextSegment := segments.get? insertIndex
    let step :
        ℚ × ℚ × List Segment :=
      match prevSegment, nextSegment with
      | some prev, some next =>
        let newStartTime := prev.endTime
        let newEndTime := min (newStartTime + duration) next.startTime
        if next.startTime ≤ newEndTime then
          let adjustedEnd :=
            newStartTime + min duration ((next.startTime - newStartTime) / 2)
          (newStartTime, adjustedEnd,
            segments.set insertIndex { next with startTime := adjustedEnd })
        else
          (newStartTime, newEndTime, segments)
      | some prev, none =>
        (prev.endTime, prev.endTime + duration, segments)
      | none, _ => (0, duration, segments)
    let newSegment : Segment :=
      ⟨(insertIndex : ℚ) + 1, step.1, step.2.1, text⟩
    reindexFrom 0
      (step.2.2.take insertIndex ++ newSegment ::
        step.2.2.drop insertIndex)

/-- The undo/redo state of the transcript editor component: the current
segment list, the history of snapshots, and the cursor.  A stored
`HistoryState` is modelled by its segment list (its `Date.now()` timestamp
plays no role in the claimed behaviour, and the `JSON` deep clone is the
identity in a pure model). -/
structure EditorState where
  segments : List Segment
  history : List (List Segment)
  historyIndex : ℤ
deriving DecidableEq, Repr

/-- `saveToHistory` from the transcript editor component: truncate any
future states after the cursor, append the snapshot, evict the oldest
entry when the cap of 50 is exceeded (in which case the cursor is not
advanced), otherwise advance the cursor. -/
def saveToHistory (s : EditorState) (newSegments : List Segment) :
    EditorState :=
  let newHistory := s.history.take (s.historyIndex + 1).toNat ++ [newSegments]
  if 50 < newHistory.length then
    { s with history := newHistory.drop 1 }
  else
    { s with history := newHistory, historyIndex := s.historyIndex + 1 }

/-- `handleUndo` from the transcript editor component. -/
def handleUndo (s : EditorState) : EditorState :=
  if 0 < s.historyIndex then
    let newIndex := s.historyIndex - 1
    { s with
      historyIndex := newIndex
      segments := s.history.getD newIndex.toNat [] }
  else s

/-! ## Generic facts about `reindexFrom` and dense IDs -/

/-- The ID list `[1, 2, …, n]`. -/
def denseIds (n : ℕ) : List ℚ := (List.range n).map (fun k => ((k + 1 : ℕ) : ℚ))

/-- A segment list whose IDs are exactly `1..N` in list order. -/
abbrev idsDense (l : List Segment) : Prop := l.map (·.id) = denseIds l.length

theorem length_reindexFrom (i : ℕ) (l : List Segment) :
    (reindexFrom i l).length = l.length := by
  induction l generalizing i with
  | nil => simp [reindexFrom]
  | cons s rest ih => simp [reindexFrom, ih]

theorem denseIds_eq_range' (n : ℕ) :
    denseIds n = (List.range' 1 n).map (fun k : ℕ => (k : ℚ)) := by
  unfold denseIds
  rw [List.range'_eq_map_range, List.map_map]
  apply List.map_congr_left
  intro k _
  simp [Nat.add_comm]

theorem map_id_reindexFrom (l : List Segment) : ∀ i : ℕ,
    (reindexFrom i l).map (·.id) =
      (List.range' (i + 1) l.length).map (fun k : ℕ => (k : ℚ)) := by
  induction l with
  | nil => intro i; simp [reindexFrom]
  | cons s rest ih =>
    intro i
    rw [List.length_cons, List.range'_succ]
    simp only [reindexFrom, List.map_cons]
    rw [ih (i + 1)]

theorem idsDense_reindexFrom (l : List Segment) : idsDense (reindexFrom 0 l) := by
  show _ = denseIds _
  rw [length_reindexFrom, map_id_reindexFrom l 0, denseIds_eq_range']

theorem getElem?_reindexFrom (l : List Segment) : ∀ (i j : ℕ),
    (reindexFrom i l)[j]? =
      l[j]?.map (fun s => { s with id := ((i + j + 1 : ℕ) : ℚ) }) := by
  induction l with
  | nil => intro i j; simp [reindexFrom]
  | cons s rest ih =>
    intro i j
    cases j with
    | zero => simp [reindexFrom]
    | succ j =>
      simp only [reindexFrom, List.getElem?_cons_succ, ih (i + 1) j]
      have h : i + 1 + j + 1 = i + (j + 1) + 1 := by omega
      rw [h]

/-! ## C2: ID density -/

/-- C2 (amended): `addSegment` returns a list whose IDs are exactly
`1..N` in list order for *every* input list (dense IDs or not) and any
arguments; and for every input list whose IDs are already dense, each of
`mergeSegments`, `splitSegment` and `deleteSegment` also returns a list
whose IDs are exactly `1..N` in list order, for any arguments. -/
theorem c2_id_density (l : List Segment) :
    (∀ pos text dur, idsDense (addSegment l pos text dur)) ∧
    (idsDense l →
      (∀ ids, idsDense (mergeSegments l ids)) ∧
      (∀ id t fT sT, idsDense (splitSegment l id t fT sT)) ∧
      (∀ id, idsDense (deleteSegment l id))) := by
  constructor
  · intro pos text dur
    cases pos <;> exact idsDense_reindexFrom _
  · intro hl
    refine ⟨?_, ?_, ?_⟩
    · intro ids
      unfold mergeSegments
      split
      · exact hl
      · dsimp only
        split
        · exact hl
        · exact idsDense_reindexFrom _
    · intro id t fT sT
      unfold splitSegment
      cases hfind : findSegIdx l id with
      | none => exact hl
      | some i =>
        dsimp only
        split
        · exact hl
        · exact idsDense_reindexFrom _
    · intro id
      unfold deleteSegment
      cases hfind : findSegIdx l id with
      | none => exact hl
      | some i => exact idsDense_reindexFrom _

/-- C2 counterexample: as stated the claim quantifies over *every* input
list, but the no-op path of `mergeSegments` returns the input unchanged,
so a list whose IDs are not dense is returned with its IDs still not
dense. -/
theorem c2_counterexample :
    ¬ idsDense (mergeSegments [⟨2, 0, 1, ['a']⟩] []) := by decide

/-- Witness for `c2_id_density`: the `addSegment` part on a list whose
IDs are *not* dense, the remaining parts on a concrete dense-ID list. -/
theorem c2_id_density_witness :
    idsDense (addSegment [⟨2, 0, 1, ['a']⟩] .beginning ['x'] 5) ∧
    idsDense [⟨1, 0, 1, ['a']⟩] ∧
    idsDense (mergeSegments [⟨1, 0, 1, ['a']⟩] []) ∧
    idsDense (splitSegment [⟨1, 0, 1, ['a']⟩] 5 0 none none) ∧
    idsDense (deleteSegment [⟨1, 0, 1, ['a']⟩] 3) :=
  ⟨(c2_id_density [⟨2, 0, 1, ['a']⟩]).1 .beginning ['x'] 5,
    by decide,
    ((c2_id_density [⟨1, 0, 1, ['a']⟩]).2 (by decide)).1 [],
    ((c2_id_density [⟨1, 0, 1, ['a']⟩]).2 (by decide)).2.1 5 0 none none,
    ((c2_id_density [⟨1, 0, 1, ['a']⟩]).2 (by decide)).2.2 3⟩

/-! ## C4: front-pin invariant -/

/-- C4 (confirmed): for every non-empty segment list, deleting the first
segment (when a segment remains) leaves a first segment with
`startTime = 0`, and retiming the first segment leaves a first segment
with `startTime = 0`. -/
theorem c4_front_pin (l : List Segment) (hl : l ≠ []) :
    (∀ s, (deleteSegment l (l.headD default).id).head? = some s →
      s.startTime = 0) ∧
    (∀ newEnd s,
      (updateSegmentTiming l (l.headD default).id newEnd).head? = some s →
      s.startTime = 0) := by
  obtain ⟨a, rest, rfl⟩ : ∃ a rest, l = a :: rest := by
    cases l with
    | nil => exact absurd rfl hl
    | cons a rest => exact ⟨a, rest, rfl⟩
  have hfind : findSegIdx (a :: rest) a.id = some 0 := by
    simp [findSegIdx, List.findIdx?_cons]
  constructor
  · intro s hs
    cases rest with
    | nil =>
      simp [deleteSegment, hfind, reindexFrom] at hs
    | cons b rs =>
      simp only [List.headD_cons] at hs
      simp [deleteSegment, hfind, reindexFrom] at hs
      rw [← hs]
  · intro newEnd s hs
    cases rest with
    | nil =>
      simp only [List.headD_cons] at hs
      simp [updateSegmentTiming, hfind] at hs
      rw [← hs]
    | cons b rs =>
      simp only [List.headD_cons] at hs
      simp [updateSegmentTiming, hfind] at hs
      rw [← hs]

/-- Witness for `c4_front_pin`: a concrete two-segment list whose first
segment starts at 2. -/
theorem c4_front_pin_witness :
    ([⟨1, 2, 3, ['a']⟩, ⟨2, 3, 4, ['b']⟩] : List Segment) ≠ [] ∧
    (deleteSegment [⟨1, 2, 3, ['a']⟩, ⟨2, 3, 4, ['b']⟩]
      (([⟨1, 2, 3, ['a']⟩, ⟨2, 3, 4, ['b']⟩] :
        List Segment).headD default).id).head? = some ⟨1, 0, 4, ['b']⟩ ∧
    (⟨1, 0, 4, ['b']⟩ : Segment).startTime = 0 :=
  ⟨by decide, by decide,
    (c4_front_pin [⟨1, 2, 3, ['a']⟩, ⟨2, 3, 4, ['b']⟩] (by decide)).1
      ⟨1, 0, 4, ['b']⟩ (by decide)⟩

/-! ## C5: no-op safety -/

theorem findSegIdx_eq_none {l : List Segment} {id : ℚ}
    (h : id ∉ l.map (·.id)) : findSegIdx l id = none := by
  rw [findSegIdx, List.findIdx?_eq_none_iff]
  intro x hx
  simp only [decide_eq_false_iff_not]
  intro he
  exact h (he ▸ List.mem_map_of_mem (·.id) hx)

/-- C5 (confirmed): merging with fewer than two IDs, splitting at an
unknown ID (for any split time and any optional texts), and deleting an
unknown ID all return the input list unchanged. -/
theorem c5_noop_safety (l : List Segment) :
    mergeSegments l [] = l ∧
    (∀ x, mergeSegments l [x] = l) ∧
    (∀ id t fT sT, id ∉ l.map (·.id) → splitSegment l id t fT sT = l) ∧
    (∀ id, id ∉ l.map (·.id) → deleteSegment l id = l) := by
  refine ⟨?_, ?_, ?_, ?_⟩
  · simp [mergeSegments]
  · intro x; simp [mergeSegments]
  · intro id t fT sT h
    simp [splitSegment, findSegIdx_eq_none h]
  · intro id h
    simp [deleteSegment, findSegIdx_eq_none h]

/-- Witness for `c5_noop_safety` at a concrete list and an ID (5) absent
from it. -/
theorem c5_noop_safety_witness :
    mergeSegments [⟨1, 0, 2, ['a']⟩] [] = [⟨1, 0, 2, ['a']⟩] ∧
    mergeSegments [⟨1, 0, 2, ['a']⟩] [1] = [⟨1, 0, 2, ['a']⟩] ∧
    splitSegment [⟨1, 0, 2, ['a']⟩] 5 1 none none = [⟨1, 0, 2, ['a']⟩] ∧
    deleteSegment [⟨1, 0, 2, ['a']⟩] 5 = [⟨1, 0, 2, ['a']⟩] :=
  ⟨(c5_noop_safety _).1,
    (c5_noop_safety _).2.1 1,
    (c5_noop_safety _).2.2.1 5 1 none none (by decide),
    (c5_noop_safety _).2.2.2 5 (by decide)⟩

/-! ## C3: degenerate segments -/

/-- C3 (code bug): the input list satisfies `startTime < endTime`
throughout, yet `addSegment` at `beginning` returns a first segment with
`startTime = endTime = 0` — the front-pinned first segment forces
`newEndTime = min(duration, 0) = 0`.  The spec requires operations never
to return zero-length segments. -/
theorem c3_addSegment_degenerate :
    (∀ s ∈ ([⟨1, 0, 2, ['a']⟩] : List Segment), s.startTime < s.endTime) ∧
    addSegment [⟨1, 0, 2, ['a']⟩] .beginning "New segment".data 5 =
      [⟨1, 0, 0, "New segment".data⟩, ⟨2, 0, 2, ['a']⟩] ∧
    ¬ (∀ s ∈ addSegment [⟨1, 0, 2, ['a']⟩] .beginning "New segment".data 5,
        s.startTime < s.endTime) := by
  refine ⟨by decide, by decide, ?_⟩
  intro h
  exact absurd (h ⟨1, 0, 0, "New segment".data⟩ (by decide)) (by decide)

/-! ## C8: active-segment lookup -/

/-- C8 (amended): the strict snapshot of `findCurrentSegment` returns the
first segment in list order whose closed interval contains the time, for
every list and time; on the spec's boundary example both the strict and
the tolerant (`CRITICAL FIX`) snapshots return segment 1 at `t = 2.0`.
The tolerant snapshot does not satisfy the containment rule in general
(see the counterexample). -/
theorem c8_find_active :
    (∀ (segments : List Segment) (t : ℚ),
      findCurrentSegment segments t =
        segments.find? (fun s => decide (s.startTime ≤ t ∧ t ≤ s.endTime))) ∧
    findCurrentSegment [⟨1, 0, 2, ['a']⟩, ⟨2, 2, 4, ['b']⟩] 2 =
      some ⟨1, 0, 2, ['a']⟩ ∧
    findCurrentSegmentFixed [⟨1, 0, 2, ['a']⟩, ⟨2, 2, 4, ['b']⟩] 2 =
      some ⟨1, 0, 2, ['a']⟩ := by
  refine ⟨?_, by decide, ?_⟩
  · intro segments t
    induction segments with
    | nil => simp [findCurrentSegment]
    | cons a rest ih =>
      by_cases h : a.startTime ≤ t ∧ t ≤ a.endTime
      · simp [findCurrentSegment, List.find?_cons, h]
      · simp [findCurrentSegment, List.find?_cons, h, ih]
  · norm_num [findCurrentSegmentFixed, findWithTolerance]

/-- C8 counterexample: on `[{1,0,2},{2,3,4}]` at `t = 2.1` the tolerant
snapshot of the lookup returns segment 1 although no segment's closed
interval contains `2.1`, so the claimed containment rule does not hold of
it. -/
theorem c8_counterexample :
    findCurrentSegmentFixed [⟨1, 0, 2, ['a']⟩, ⟨2, 3, 4, ['b']⟩] (21 / 10) =
      some ⟨1, 0, 2, ['a']⟩ ∧
    ∀ s ∈ ([⟨1, 0, 2, ['a']⟩, ⟨2, 3, 4, ['b']⟩] : List Segment),
      ¬ (s.startTime ≤ 21 / 10 ∧ 21 / 10 ≤ s.endTime) := by
  constructor
  · norm_num [findCurrentSegmentFixed, findWithTolerance]
  · intro s hs
    simp only [List.mem_cons, List.not_mem_nil, or_false] at hs
    rcases hs with h | h
    all_goals subst h
    all_goals norm_num

/-! ## C10: default split of a one-word segment -/

/-- C10 (confirmed): splitting a segment whose text is one non-empty word
(no spaces) at a time strictly inside its interval, with no explicit
texts, yields a tombstoned (empty-text) first half and a second half
carrying the whole word: `floor(1/2) = 0` words go to the first half. -/
theorem c10_split_single_word (segments : List Segment) (segmentId t : ℚ)
    (i : ℕ) (orig : Segment)
    (hfind : findSegIdx segments segmentId = some i)
    (horig : segments[i]? = some orig)
    (_hne : orig.text ≠ []) (hword : ' ' ∉ orig.text)
    (h1 : orig.startTime < t) (h2 : t < orig.endTime) :
    (splitSegment segments segmentId t none none)[i]? =
      some ⟨((i + 1 : ℕ) : ℚ), orig.startTime, t, []⟩ ∧
    (splitSegment segments segmentId t none none)[i + 1]? =
      some ⟨((i + 2 : ℕ) : ℚ), t, orig.endTime, orig.text⟩ := by
  have hilt : i < segments.length := by
    rcases List.getElem?_eq_some.mp horig with ⟨h, _⟩
    exact h
  have hgetD : segments.getD i default = orig := by
    simp [List.getD_eq_getElem?_getD, horig]
  have hwords : splitOnChar ' ' orig.text = [orig.text] := by
    unfold splitOnChar List.splitOn
    apply List.splitOnP_eq_single
    intro x hx
    simp only [beq_iff_eq]
    intro he
    exact hword (he ▸ hx)
  have hcond : ¬ (t ≤ orig.startTime ∨ orig.endTime ≤ t) := by
    push_neg
    exact ⟨h1, h2⟩
  have hres : splitSegment segments segmentId t none none =
      reindexFrom 0 (segments.take i ++
        ⟨orig.id, orig.startTime, t, []⟩ ::
        ⟨orig.id + 1, t, orig.endTime, orig.text⟩ ::
        segments.drop (i + 1)) := by
    simp only [splitSegment, hfind, hgetD, hcond, if_false]
    simp [jsFalsyStr, jsOrStr, hwords, List.intercalate]
  rw [hres, getElem?_reindexFrom, getElem?_reindexFrom]
  have hlen : (segments.take i).length = i := by
    rw [List.length_take]
    omega
  constructor
  · rw [List.getElem?_append]
    simp [hlen]
  · rw [List.getElem?_append]
    simp only [hlen]
    have : ¬ (i + 1 < i) := by omega
    rw [if_neg this]
    have : i + 1 - i = 1 := by omega
    rw [this]
    simp
    ring

/-- Witness for `c10_split_single_word` on `[{1, 0, 10, "word"}]` split at
`t = 5`. -/
theorem c10_split_single_word_witness :
    (splitSegment [⟨1, 0, 10, "word".data⟩] 1 5 none none)[0]? =
      some ⟨((0 + 1 : ℕ) : ℚ), 0, 5, []⟩ ∧
    (splitSegment [⟨1, 0, 10, "word".data⟩] 1 5 none none)[0 + 1]? =
      some ⟨((0 + 2 : ℕ) : ℚ), 5, 10, "word".data⟩ :=
  c10_split_single_word [⟨1, 0, 10, "word".data⟩] 1 5 0 ⟨1, 0, 10, "word".data⟩
    (by decide) (by decide) (by decide) (by decide) (by decide) (by decide)

/-! ## C9: history bound -/

theorem saveToHistory_foldl (l : List (List Segment)) (segs0 : List Segment) :
    l.foldl saveToHistory ⟨segs0, [], -1⟩ =
      ⟨segs0, l.drop (l.length - 50), ((min l.length 50 : ℕ) : ℤ) - 1⟩ := by
  induction l using List.reverseRecOn with
  | nil => simp
  | append_singleton l x ih =>
    rw [List.foldl_concat, ih]
    have hlen : (l.drop (l.length - 50)).length = min l.length 50 := by
      rw [List.length_drop]
      omega
    have hidx : (((min l.length 50 : ℕ) : ℤ) - 1 + 1).toNat =
        min l.length 50 := by omega
    unfold saveToHistory
    simp only [hidx]
    rw [List.take_of_length_le (le_of_eq hlen)]
    simp only [List.length_append, List.length_singleton, hlen,
      List.length_cons, List.length_nil, Nat.zero_add]
    by_cases hn : l.length ≤ 49
    · rw [if_neg (by omega)]
      simp only [EditorState.mk.injEq]
      refine ⟨trivial, ?_, by omega⟩
      have h0 : l.length - 50 = 0 := by omega
      have h0' : l.length + 1 - 50 = 0 := by omega
      rw [h0, h0', List.drop_zero, List.drop_zero]
    · rw [if_pos (by omega)]
      simp only [EditorState.mk.injEq]
      refine ⟨trivial, ?_, by omega⟩
      rw [List.drop_append_of_le_length
        (by omega : 1 ≤ (l.drop (l.length - 50)).length)]
      rw [List.drop_drop]
      rw [List.drop_append_of_le_length
        (by omega : l.length + 1 - 50 ≤ l.length)]
      congr 2
      omega

theorem handleUndo_iter : ∀ (k : ℕ) (segs0 : List Segment)
    (hist : List (List Segment)) (j : ℤ), 1 ≤ k → (k : ℤ) ≤ j →
    handleUndo^[k] ⟨segs0, hist, j⟩ =
      ⟨hist.getD (j - k).toNat [], hist, j - k⟩ := by
  intro k
  induction k with
  | zero => intro _ _ _ h _; omega
  | succ k ih =>
    intro segs0 hist j _ hkj
    rw [Function.iterate_succ_apply]
    have hj : 0 < j := by
      have h1 : ((k : ℤ) + 1) ≤ j := by push_cast at hkj; omega
      omega
    have hstep : handleUndo ⟨segs0, hist, j⟩ =
        ⟨hist.getD (j - 1).toNat [], hist, j - 1⟩ := by
      unfold handleUndo
      rw [if_pos hj]
    rw [hstep]
    cases Nat.eq_zero_or_pos k with
    | inl h0 =>
      subst h0
      simp only [Function.iterate_zero, id]
      norm_num
    | inr hpos =>
      rw [ih _ hist (j - 1) hpos (by push_cast at hkj ⊢; omega)]
      have he : j - 1 - (k : ℤ) = j - ((k : ℕ) + 1 : ℕ) := by push_cast; ring
      rw [he]

/-- C9 (confirmed): starting from an empty history, after 60 `saveState`
calls the history holds at most 50 snapshots — exactly the last 50 — and
49 undos land on the oldest retained snapshot, the 11th saved state (the
first 10 were evicted). -/
theorem c9_history_bound (snaps : List (List Segment))
    (h : snaps.length = 60) :
    (snaps.foldl saveToHistory ⟨[], [], -1⟩).history.length ≤ 50 ∧
    (snaps.foldl saveToHistory ⟨[], [], -1⟩).history = snaps.drop 10 ∧
    (handleUndo^[49] (snaps.foldl saveToHistory ⟨[], [], -1⟩)).segments =
      snaps.getD 10 [] := by
  have hfold := saveToHistory_foldl snaps []
  rw [h] at hfold
  norm_num at hfold
  rw [hfold]
  refine ⟨?_, rfl, ?_⟩
  · simp [List.length_drop, h]
  · rw [handleUndo_iter 49 [] (snaps.drop 10) 49 (by norm_num) (by norm_num)]
    have h49 : ((49 : ℤ) - ((49 : ℕ) : ℤ)).toNat = 0 := by norm_num
    simp only [h49, List.getD_eq_getElem?_getD, List.getElem?_drop]

/-- Witness for `c9_history_bound` on 60 concrete one-segment snapshots. -/
theorem c9_history_bound_witness :
    ((List.range 60).map
      (fun n => [(⟨((n + 1 : ℕ) : ℚ), 0, 1, []⟩ : Segment)])).length = 60 ∧
    (((List.range 60).map
      (fun n => [(⟨((n + 1 : ℕ) : ℚ), 0, 1, []⟩ : Segment)])).foldl
        saveToHistory ⟨[], [], -1⟩).history =
      ((List.range 60).map
        (fun n => [(⟨((n + 1 : ℕ) : ℚ), 0, 1, []⟩ : Segment)])).drop 10 ∧
    (handleUndo^[49] (((List.range 60).map
      (fun n => [(⟨((n + 1 : ℕ) : ℚ), 0, 1, []⟩ : Segment)])).foldl
        saveToHistory ⟨[], [], -1⟩)).segments =
      ((List.range 60).map
        (fun n => [(⟨((n + 1 : ℕ) : ℚ), 0, 1, []⟩ : Segment)])).getD 10 [] :=
  ⟨by simp,
    (c9_history_bound _ (by simp)).2.1,
    (c9_history_bound _ (by simp)).2.2⟩

/-! ## C6: the timestamp parser's failure contract -/

/-- C6 (amended): `timestampToSeconds` throws exactly when the token
splits into fewer than 3 colon-fields (the source reads `parts[2]`
unconditionally); when it does not throw it returns
`h*3600 + m*60 + sec + ms/1000` computed from `parseInt` of the fields
(with the third field split on a comma), which is `NaN` — not a throw —
when a component fails to parse (e.g. a missing comma), and is negative
when the fields are. -/
theorem c6_parse_timestamp (s : Str) :
    (timestampToSeconds s = none ↔ (splitOnChar ':' s).length < 3) ∧
    (∀ p0 p1 p2 rest, splitOnChar ':' s = p0 :: p1 :: p2 :: rest →
      ∀ (h m sec ms : ℚ),
        jsParseInt p0 = some h → jsParseInt p1 = some m →
        jsParseInt ((splitOnChar ',' p2).headD []) = some sec →
        (match (splitOnChar ',' p2).get? 1 with
          | some tk => jsParseInt tk
          | none => none) = some ms →
        timestampToSeconds s =
          some (some (h * 3600 + m * 60 + sec + ms / 1000))) := by
  constructor
  · unfold timestampToSeconds
    rcases hsp : splitOnChar ':' s with _ | ⟨p0, _ | ⟨p1, _ | ⟨p2, rest⟩⟩⟩ <;>
      simp
  · intro p0 p1 p2 rest hsp h m sec ms hh hm hsec hms
    unfold timestampToSeconds
    rw [hsp]
    simp only [hh, hm, hsec, hms, jAdd, jMulC, jDivC, Option.map_some']

/-- C6 counterexample: `"1:2:3:4"` does not split into exactly 3
colon-fields and `"0:0:0"` has no comma in its sub-second field, so the
claim says both fail with `FormatError`; the code instead returns `NaN`
(`some none` here) for both. -/
theorem c6_counterexample :
    (splitOnChar ':' "1:2:3:4".data).length ≠ 3 ∧
    timestampToSeconds "1:2:3:4".data = some none ∧
    (splitOnChar ',' "0".data).length = 1 ∧
    timestampToSeconds "0:0:0".data = some none := by
  refine ⟨by decide, by decide, by decide, by decide⟩

/-- Witness for `c6_parse_timestamp` on the token `01:02:03,004`. -/
theorem c6_parse_timestamp_witness :
    (timestampToSeconds "ab".data = none) ∧
    timestampToSeconds "01:02:03,004".data =
      some (some ((1 : ℚ) * 3600 + 2 * 60 + 3 + 4 / 1000)) :=
  ⟨(c6_parse_timestamp "ab".data).1.mpr (by decide),
    (c6_parse_timestamp "01:02:03,004".data).2
      "01".data "02".data "03,004".data [] (by decide) 1 2 3 4
      (by decide) (by decide) (by decide) (by decide)⟩

/-! ## Step lemmas for the block-scanning loop of `parseSRT` -/

theorem parseBlocks_nil : parseBlocks [] = some [] := by
  rw [parseBlocks.eq_def]

theorem parseBlocks_blank {a : Str} (r : List Str) (h : trimStr a = []) :
    parseBlocks (a :: r) = parseBlocks r := by
  rw [parseBlocks.eq_def]
  simp [h]

theorem parseBlocks_single {a : Str} (h : trimStr a ≠ []) :
    parseBlocks [a] = some [] := by
  rw [parseBlocks.eq_def]
  simp [h]

theorem parseBlocks_noArrow {idLine tsLine : Str} (rest2 : List Str)
    (hid : trimStr idLine ≠ []) (hts : (splitOnArrow tsLine).length ≠ 2) :
    parseBlocks (idLine :: tsLine :: rest2) = parseBlocks (rest2.drop 1) := by
  rw [parseBlocks.eq_def]
  simp [hid, hts]

theorem parseBlocks_throwStart {idLine tsLine : Str} (rest2 : List Str)
    (hid : trimStr idLine ≠ []) (hts : (splitOnArrow tsLine).length = 2)
    (h0 : timestampToSeconds ((splitOnArrow tsLine).headD []) = none) :
    parseBlocks (idLine :: tsLine :: rest2) = none := by
  rw [parseBlocks.eq_def]
  dsimp only
  rw [if_neg hid, if_pos hts, h0]

theorem parseBlocks_throwEnd {idLine tsLine : Str} (rest2 : List Str)
    {st : JVal}
    (hid : trimStr idLine ≠ []) (hts : (splitOnArrow tsLine).length = 2)
    (h0 : timestampToSeconds ((splitOnArrow tsLine).headD []) = some st)
    (h1 : timestampToSeconds ((splitOnArrow tsLine).getD 1 []) = none) :
    parseBlocks (idLine :: tsLine :: rest2) = none := by
  rw [parseBlocks.eq_def]
  dsimp only
  rw [if_neg hid, if_pos hts, h0, h1]

theorem parseBlocks_seg {idLine tsLine : Str} (rest2 : List Str)
    {st en : JVal}
    (hid : trimStr idLine ≠ []) (hts : (splitOnArrow tsLine).length = 2)
    (h0 : timestampToSeconds ((splitOnArrow tsLine).headD []) = some st)
    (h1 : timestampToSeconds ((splitOnArrow tsLine).getD 1 []) = some en) :
    parseBlocks (idLine :: tsLine :: rest2) =
      (parseBlocks (rest2.dropWhile (fun l => !(trimStr l).isEmpty))).map
        (fun tl =>
          ⟨jsParseInt idLine, st, en,
            List.intercalate ['\n']
              (rest2.takeWhile (fun l => !(trimStr l).isEmpty))⟩ :: tl) := by
  rw [parseBlocks.eq_def]
  dsimp only
  rw [if_neg hid, if_pos hts, h0, h1]

/-! ## C7: lenient parsing of malformed blocks -/

/-- C7 (amended): a candidate block whose timestamp line lacks the
literal ` --> ` delimiter is skipped (the scanner consumes the ID line,
the timestamp line and one further line, emits nothing, and parsing
continues); but when the delimiter is present and a timestamp token has
fewer than 3 colon-fields, the whole parse throws instead of skipping the
block. -/
theorem c7_lenient_parse (idLine tsLine : Str) (rest : List Str)
    (hid : trimStr idLine ≠ []) :
    ((splitOnArrow tsLine).length ≠ 2 →
      parseBlocks (idLine :: tsLine :: rest) = parseBlocks (rest.drop 1)) ∧
    ((splitOnArrow tsLine).length = 2 →
      timestampToSeconds ((splitOnArrow tsLine).headD []) = none →
      parseBlocks (idLine :: tsLine :: rest) = none) :=
  ⟨fun hts => parseBlocks_noArrow rest hid hts,
    fun hts h0 => parseBlocks_throwStart rest hid hts h0⟩

/-- C7 counterexample: a block whose timestamp line contains ` --> ` but
holds a malformed token is *not* skipped: `parseSRT "1\na --> b\nx"`
throws (the claim says it should skip the block and continue), and a
token with 3 colon-fields but no comma yields a segment carrying `NaN`
timing rather than no segment at all. -/
theorem c7_counterexample :
    parseSRT "1\na --> b\nx".data = none ∧
    (parseSRT "1\n00:00:00,000 --> 0:0:0\nhi".data).map
      (List.map ParsedSeg.endTime) = some [none] := by
  constructor
  · have hl : splitOnChar '\n' (trimStr "1\na --> b\nx".data) =
        ["1".data, "a --> b".data, "x".data] := by decide
    rw [parseSRT, hl]
    exact parseBlocks_throwStart _ (by decide) (by decide) (by decide)
  · have hl : splitOnChar '\n' (trimStr "1\n00:00:00,000 --> 0:0:0\nhi".data) =
        ["1".data, "00:00:00,000 --> 0:0:0".data, "hi".data] := by decide
    rw [parseSRT, hl]
    rw [@parseBlocks_seg "1".data "00:00:00,000 --> 0:0:0".data ["hi".data]
      ((timestampToSeconds "00:00:00,000".data).getD none) none
      (by decide) (by decide) (by rfl) (by decide)]
    have hdrop : List.dropWhile (fun l => !List.isEmpty (trimStr l))
        ["hi".data] = [] := by decide
    rw [hdrop, parseBlocks_nil]
    rfl

/-- Witness for `c7_lenient_parse` on a no-arrow block and on a block
with the arrow but a colon-poor token. -/
theorem c7_lenient_parse_witness :
    parseBlocks ["1".data, "hello".data, "x".data] = parseBlocks [] ∧
    parseBlocks ["1".data, "a --> b".data, "x".data] = none :=
  ⟨(c7_lenient_parse "1".data "hello".data ["x".data] (by decide)).1
      (by decide),
    (c7_lenient_parse "1".data "a --> b".data ["x".data] (by decide)).2
      (by decide) (by decide)⟩

/-! ## Digit-string machinery for the round-trip proof -/

/-- The ten decimal digit characters. -/
def digitList : Str := ['0', '1', '2', '3', '4', '5', '6', '7', '8', '9']

theorem digitList_facts : ∀ c ∈ digitList, c.isDigit = true ∧
    c.isWhitespace = false ∧ c ≠ ':' ∧ c ≠ ',' ∧ c ≠ '\n' ∧ c ≠ ' ' ∧
    c ≠ '-' ∧ c ≠ '+' := by decide

theorem digitChar_mem_digitList (d : ℕ) (h : d < 10) :
    Nat.digitChar d ∈ digitList := by
  interval_cases d <;> decide

theorem digitChar_val (d : ℕ) (h : d < 10) :
    (Nat.digitChar d).toNat - '0'.toNat = d := by
  interval_cases d <;> decide

theorem natToStrAux_irrel : ∀ (f₁ : ℕ), ∀ (n f₂ : ℕ), n < f₁ → n < f₂ →
    natToStrAux f₁ n = natToStrAux f₂ n := by
  intro f₁
  induction f₁ with
  | zero => intro n f₂ h _; omega
  | succ f ih =>
    intro n f₂ h1 h2
    cases f₂ with
    | zero => omega
    | succ g =>
      by_cases hn : n < 10
      · simp [natToStrAux, hn]
      · have hrec : n / 10 < n := Nat.div_lt_self (by omega) (by omega)
        simp only [natToStrAux, hn, if_false]
        rw [ih (n / 10) f (by omega) (by omega),
          ih (n / 10) g (by omega) (by omega)]

theorem natToStr_eq (n : ℕ) : natToStr n =
    if n < 10 then [Nat.digitChar n]
    else natToStr (n / 10) ++ [Nat.digitChar (n % 10)] := by
  by_cases hn : n < 10
  · simp [natToStr, natToStrAux, hn]
  · have hrec : n / 10 < n := Nat.div_lt_self (by omega) (by omega)
    rw [if_neg hn]
    have hstep : natToStr n =
        natToStrAux n (n / 10) ++ [Nat.digitChar (n % 10)] := by
      show natToStrAux (n + 1) n = _
      rw [show natToStrAux (n + 1) n =
        if n < 10 then [Nat.digitChar n]
        else natToStrAux n (n / 10) ++ [Nat.digitChar (n % 10)] from rfl]
      rw [if_neg hn]
    rw [hstep,
      natToStrAux_irrel n (n / 10) (n / 10 + 1) (by omega) (by omega)]
    rfl

theorem mem_natToStr (n : ℕ) : ∀ c ∈ natToStr n, c ∈ digitList := by
  induction n using Nat.strong_induction_on with
  | _ n ih =>
    rw [natToStr_eq]
    by_cases hn : n < 10
    · simp only [hn, if_true, List.mem_singleton]
      intro c hc
      subst hc
      exact digitChar_mem_digitList n hn
    · simp only [hn, if_false]
      intro c hc
      rcases List.mem_append.mp hc with h | h
      · exact ih (n / 10) (Nat.div_lt_self (by omega) (by omega)) c h
      · rw [List.mem_singleton] at h
        subst h
        exact digitChar_mem_digitList (n % 10) (Nat.mod_lt _ (by omega))

theorem natToStr_ne_nil (n : ℕ) : natToStr n ≠ [] := by
  rw [natToStr_eq]
  by_cases hn : n < 10 <;> simp [hn]

theorem digitsToNat_concat (xs : Str) (c : Char) :
    digitsToNat (xs ++ [c]) = 10 * digitsToNat xs + (c.toNat - '0'.toNat) := by
  unfold digitsToNat
  rw [List.foldl_concat]

theorem digitsToNat_natToStr (n : ℕ) : digitsToNat (natToStr n) = n := by
  induction n using Nat.strong_induction_on with
  | _ n ih =>
    rw [natToStr_eq]
    by_cases hn : n < 10
    · simp only [hn, if_true]
      show 10 * 0 + ((Nat.digitChar n).toNat - '0'.toNat) = n
      rw [digitChar_val n hn]
      omega
    · simp only [hn, if_false, digitsToNat_concat,
        ih (n / 10) (Nat.div_lt_self (by omega) (by omega)),
        digitChar_val (n % 10) (Nat.mod_lt _ (by omega))]
      omega

theorem digitsToNat_zeros (k : ℕ) (s : Str) :
    digitsToNat (List.replicate k '0' ++ s) = digitsToNat s := by
  induction k with
  | zero => simp
  | succ k ih => exact ih

theorem jsParseInt_digits (s : Str) (hne : s ≠ [])
    (hd : ∀ c ∈ s, c ∈ digitList) :
    jsParseInt s = some ((digitsToNat s : ℕ) : ℚ) := by
  obtain ⟨c, cs, rfl⟩ : ∃ c cs, s = c :: cs := by
    cases s with
    | nil => exact absurd rfl hne
    | cons c cs => exact ⟨c, cs, rfl⟩
  have hc := digitList_facts c (hd c (List.mem_cons_self c cs))
  have hdrop : (c :: cs).dropWhile Char.isWhitespace = c :: cs := by
    rw [List.dropWhile_cons, hc.2.1]
    simp
  unfold jsParseInt
  rw [hdrop]
  dsimp only
  rw [if_neg hc.2.2.2.2.2.2.1, if_neg hc.2.2.2.2.2.2.2]
  have htake : (c :: cs).takeWhile Char.isDigit = c :: cs := by
    apply List.takeWhile_eq_self_iff.mpr
    intro x hx
    exact (digitList_facts x (hd x hx)).1
  unfold jsParseDigits
  rw [htake]
  simp

theorem jsParseInt_pad (k n : ℕ) :
    jsParseInt (padStartZeros k (natToStr n)) = some ((n : ℕ) : ℚ) := by
  unfold padStartZeros
  rw [jsParseInt_digits _ ?_ ?_]
  · rw [digitsToNat_zeros, digitsToNat_natToStr]
  · intro h
    exact natToStr_ne_nil n (List.append_eq_nil.mp h).2
  · intro c hc
    rcases List.mem_append.mp hc with h | h
    · rw [List.eq_of_mem_replicate h]
      decide
    · exact mem_natToStr n c h

theorem jsParseInt_natToStr (n : ℕ) :
    jsParseInt (natToStr n) = some ((n : ℕ) : ℚ) := by
  rw [jsParseInt_digits _ (natToStr_ne_nil n) (mem_natToStr n),
    digitsToNat_natToStr]

/-! ## Evaluating `formatSRTTimestamp` on millisecond-aligned times -/

theorem floor_nat_div (a b : ℕ) (hb : 0 < b) :
    ⌊(a : ℚ) / (b : ℚ)⌋ = ((a / b : ℕ) : ℤ) := by
  have hbq : (0 : ℚ) < (b : ℚ) := by exact_mod_cast hb
  rw [Int.floor_eq_iff]
  constructor
  · rw [le_div_iff₀ hbq]
    exact_mod_cast Nat.div_mul_le_self a b
  · rw [div_lt_iff₀ hbq]
    have h : a < (a / b + 1) * b := by
      have h1 := Nat.div_add_mod a b
      have h2 := Nat.mod_lt a hb
      nlinarith
    exact_mod_cast h

theorem jsMod_div1000 (n b : ℕ) (hb : 0 < b) :
    jsMod ((n : ℚ) / 1000) (b : ℚ) = ((n % (1000 * b) : ℕ) : ℚ) / 1000 := by
  unfold jsMod
  have h1 : (n : ℚ) / 1000 / (b : ℚ) = (n : ℚ) / ((1000 * b : ℕ) : ℚ) := by
    push_cast
    ring
  rw [h1, floor_nat_div n (1000 * b) (by omega), Int.cast_natCast]
  have h2q : ((n % (1000 * b) : ℕ) : ℚ) =
      (n : ℚ) - 1000 * (b : ℚ) * ((n / (1000 * b) : ℕ) : ℚ) := by
    have h2 := Nat.mod_add_div n (1000 * b)
    have h3 : ((n % (1000 * b) : ℕ) : ℚ) +
        ((1000 * b : ℕ) : ℚ) * ((n / (1000 * b) : ℕ) : ℚ) = (n : ℚ) := by
      exact_mod_cast h2
    push_cast at h3
    linarith
  rw [h2q]
  ring

theorem intToStr_natCast (k : ℕ) : intToStr ((k : ℕ) : ℤ) = natToStr k := by
  unfold intToStr
  rw [if_neg (by omega : ¬ ((k : ℕ) : ℤ) < 0)]
  simp

/-- The canonical `HH:MM:SS,mmm` character string of `n` milliseconds. -/
def tsChars (n : ℕ) : Str :=
  padStartZeros 2 (natToStr (n / 3600000)) ++ ':' ::
    (padStartZeros 2 (natToStr (n % 3600000 / 60000)) ++ ':' ::
      (padStartZeros 2 (natToStr (n % 60000 / 1000)) ++ ',' ::
        padStartZeros 3 (natToStr (n % 1000))))

theorem formatSRT_eq (n : ℕ) :
    formatSRTTimestamp ((n : ℚ) / 1000) = tsChars n := by
  unfold formatSRTTimestamp tsChars
  dsimp only
  have hh : ⌊(n : ℚ) / 1000 / 3600⌋ = ((n / 3600000 : ℕ) : ℤ) := by
    rw [show (n : ℚ) / 1000 / 3600 = (n : ℚ) / ((3600000 : ℕ) : ℚ) by
      push_cast; ring]
    exact floor_nat_div n 3600000 (by omega)
  have hm : ⌊jsMod ((n : ℚ) / 1000) 3600 / 60⌋ =
      ((n % 3600000 / 60000 : ℕ) : ℤ) := by
    rw [show (3600 : ℚ) = ((3600 : ℕ) : ℚ) by norm_num,
      jsMod_div1000 n 3600 (by omega)]
    rw [show ((n % (1000 * 3600) : ℕ) : ℚ) / 1000 / 60 =
      ((n % 3600000 : ℕ) : ℚ) / ((60000 : ℕ) : ℚ) by norm_num; ring]
    exact floor_nat_div (n % 3600000) 60000 (by omega)
  have hs : ⌊jsMod ((n : ℚ) / 1000) 60⌋ = ((n % 60000 / 1000 : ℕ) : ℤ) := by
    rw [show (60 : ℚ) = ((60 : ℕ) : ℚ) by norm_num,
      jsMod_div1000 n 60 (by omega)]
    rw [show ((n % (1000 * 60) : ℕ) : ℚ) / 1000 =
      ((n % 60000 : ℕ) : ℚ) / ((1000 : ℕ) : ℚ) by norm_num]
    exact floor_nat_div (n % 60000) 1000 (by omega)
  have hms : ⌊jsMod ((n : ℚ) / 1000) 1 * 1000⌋ = ((n % 1000 : ℕ) : ℤ) := by
    rw [show (1 : ℚ) = ((1 : ℕ) : ℚ) by norm_num,
      jsMod_div1000 n 1 (by omega)]
    rw [show ((n % (1000 * 1) : ℕ) : ℚ) / 1000 * 1000 =
      ((n % 1000 : ℕ) : ℚ) by norm_num]
    exact Int.floor_natCast _
  rw [hh, hm, hs, hms, intToStr_natCast, intToStr_natCast, intToStr_natCast,
    intToStr_natCast]

/-! ## Splitting facts for the canonical timestamp string -/

theorem modifyHead_append {α : Type} (f : α → α) (l1 l2 : List α)
    (h : l1 ≠ []) :
    (l1 ++ l2).modifyHead f = l1.modifyHead f ++ l2 := by
  cases l1 with
  | nil => exact absurd rfl h
  | cons a t => rfl

theorem splitOn_append (c : Char) (x y : Str) :
    (x ++ c :: y).splitOn c = x.splitOn c ++ y.splitOn c := by
  induction x with
  | nil =>
    show (c :: y).splitOnP (· == c) =
      [].splitOnP (· == c) ++ y.splitOnP (· == c)
    rw [List.splitOnP_cons, if_pos (beq_self_eq_true c)]
    rfl
  | cons a x' ih =>
    show (a :: (x' ++ c :: y)).splitOnP (· == c) = _
    rw [List.splitOnP_cons]
    by_cases hac : a = c
    · subst hac
      simp only [beq_self_eq_true, if_true]
      show _ = (a :: x').splitOnP (· == a) ++ y.splitOnP (· == a)
      rw [List.splitOnP_cons]
      simp only [beq_self_eq_true, if_true, List.cons_append]
      exact congrArg _ ih
    · have hbeq : (a == c) = false := by simp [hac]
      have ih' : List.splitOnP (fun x => x == c) (x' ++ c :: y) =
          List.splitOnP (fun x => x == c) x' ++
            List.splitOnP (fun x => x == c) y := ih
      simp only [hbeq, Bool.false_eq_true, if_false]
      show _ = (a :: x').splitOnP (· == c) ++ y.splitOnP (· == c)
      rw [List.splitOnP_cons, hbeq]
      simp only [Bool.false_eq_true, if_false]
      rw [ih']
      exact modifyHead_append _ _ _ (List.splitOnP_ne_nil _ x')

theorem splitOn_no_sep {c : Char} {x : Str} (h : c ∉ x) :
    x.splitOn c = [x] := by
  apply List.splitOnP_eq_single
  intro y hy hbeq
  exact h (eq_of_beq hbeq ▸ hy)

theorem mem_pad (k : ℕ) (s : Str) (h : ∀ c ∈ s, c ∈ digitList) :
    ∀ c ∈ padStartZeros k s, c ∈ digitList := by
  intro c hc
  rcases List.mem_append.mp hc with h1 | h1
  · rw [List.eq_of_mem_replicate h1]
    decide
  · exact h c h1

theorem pad_natToStr_digits (k m : ℕ) :
    ∀ c ∈ padStartZeros k (natToStr m), c ∈ digitList :=
  mem_pad k _ (mem_natToStr m)

theorem not_mem_pad_natToStr (k m : ℕ) {c : Char} (hc : c ∉ digitList) :
    c ∉ padStartZeros k (natToStr m) :=
  fun h => hc (pad_natToStr_digits k m c h)

theorem timestampToSeconds_tsChars (n : ℕ) :
    timestampToSeconds (tsChars n) = some (some ((n : ℚ) / 1000)) := by
  have hsplit : splitOnChar ':' (tsChars n) =
      [padStartZeros 2 (natToStr (n / 3600000)),
        padStartZeros 2 (natToStr (n % 3600000 / 60000)),
        padStartZeros 2 (natToStr (n % 60000 / 1000)) ++ ',' ::
          padStartZeros 3 (natToStr (n % 1000))] := by
    have h3 : ':' ∉ padStartZeros 2 (natToStr (n % 60000 / 1000)) ++ ',' ::
        padStartZeros 3 (natToStr (n % 1000)) := by
      intro hmem
      rcases List.mem_append.mp hmem with h1 | h1
      · exact not_mem_pad_natToStr 2 _ (by decide) h1
      · rcases List.mem_cons.mp h1 with h2 | h2
        · exact absurd h2 (by decide)
        · exact not_mem_pad_natToStr 3 _ (by decide) h2
    show (tsChars n).splitOn ':' = _
    unfold tsChars
    rw [splitOn_append, splitOn_append,
      splitOn_no_sep (not_mem_pad_natToStr 2 _ (by decide)),
      splitOn_no_sep (not_mem_pad_natToStr 2 _ (by decide)),
      splitOn_no_sep h3]
    rfl
  have hsplit2 : splitOnChar ','
      (padStartZeros 2 (natToStr (n % 60000 / 1000)) ++ ',' ::
        padStartZeros 3 (natToStr (n % 1000))) =
      [padStartZeros 2 (natToStr (n % 60000 / 1000)),
        padStartZeros 3 (natToStr (n % 1000))] := by
    show List.splitOn _ _ = _
    rw [splitOn_append,
      splitOn_no_sep (not_mem_pad_natToStr 2 _ (by decide)),
      splitOn_no_sep (not_mem_pad_natToStr 3 _ (by decide))]
    rfl
  unfold timestampToSeconds
  rw [hsplit]
  dsimp only
  rw [hsplit2]
  simp only [List.headD_cons, List.get?_cons_succ, List.get?_cons_zero]
  rw [jsParseInt_pad, jsParseInt_pad, jsParseInt_pad, jsParseInt_pad]
  simp only [jAdd, jMulC, jDivC, Option.map_some']
  have hnat : 3600000 * (n / 3600000) + 60000 * (n % 3600000 / 60000) +
      1000 * (n % 60000 / 1000) + n % 1000 = n := by omega
  have hq : ((3600000 * (n / 3600000) + 60000 * (n % 3600000 / 60000) +
      1000 * (n % 60000 / 1000) + n % 1000 : ℕ) : ℚ) = (n : ℚ) := by
    exact_mod_cast congrArg (fun k : ℕ => (k : ℚ)) hnat
  push_cast at hq
  congr 2
  field_simp
  linarith

/-! ## Splitting the timestamp line on the arrow -/

theorem splitOnArrow_no_space (b : Str) (h : ' ' ∉ b) :
    splitOnArrow b = [b] := by
  induction b with
  | nil => rfl
  | cons c rest ih =>
    have hc : c ≠ ' ' := fun he => h (he ▸ List.mem_cons_self c rest)
    rw [splitOnArrow.eq_2 c rest
      (fun _ he _ => hc he)]
    rw [ih (fun hm => h (List.mem_cons_of_mem c hm))]
    rfl

theorem splitOnArrow_append (a b : Str) (ha : ' ' ∉ a) (hb : ' ' ∉ b) :
    splitOnArrow (a ++ arrowSep ++ b) = [a, b] := by
  induction a with
  | nil =>
    show splitOnArrow (' ' :: '-' :: '-' :: '>' :: ' ' :: b) = [[], b]
    rw [show splitOnArrow (' ' :: '-' :: '-' :: '>' :: ' ' :: b) =
      [] :: splitOnArrow b from rfl]
    rw [splitOnArrow_no_space b hb]
  | cons c a' ih =>
    have hc : c ≠ ' ' := fun he => ha (he ▸ List.mem_cons_self c a')
    show splitOnArrow (c :: (a' ++ arrowSep ++ b)) = [c :: a', b]
    rw [splitOnArrow.eq_2 c (a' ++ arrowSep ++ b) (fun _ he _ => hc he)]
    rw [ih (fun hm => ha (List.mem_cons_of_mem c hm))]
    rfl

/-! ## Trimming facts -/

theorem dropWhile_ws_eq_self (s : Str)
    (h : ∀ c, s.head? = some c → c.isWhitespace = false) :
    s.dropWhile Char.isWhitespace = s := by
  cases s with
  | nil => rfl
  | cons c cs =>
    rw [List.dropWhile_cons, h c rfl]
    simp

theorem trimStr_eq_self (s : Str)
    (hh : ∀ c, s.head? = some c → c.isWhitespace = false)
    (hl : ∀ c, s.getLast? = some c → c.isWhitespace = false) :
    trimStr s = s := by
  unfold trimStr
  rw [dropWhile_ws_eq_self s hh]
  rw [dropWhile_ws_eq_self s.reverse
    (fun c hc => hl c (by rwa [List.head?_reverse] at hc))]
  exact List.reverse_reverse s

theorem trimStr_append_nlnl (B : Str)
    (hh : ∀ c, B.head? = some c → c.isWhitespace = false)
    (hl : ∀ c, B.getLast? = some c → c.isWhitespace = false)
    (hB : B ≠ []) :
    trimStr (B ++ ['\n', '\n']) = B := by
  unfold trimStr
  have h1 : (B ++ ['\n', '\n']).dropWhile Char.isWhitespace =
      B ++ ['\n', '\n'] := by
    apply dropWhile_ws_eq_self
    intro c hc
    apply hh c
    rwa [List.head?_append_of_ne_nil _ hB] at hc
  rw [h1]
  have h2 : (B ++ ['\n', '\n']).reverse = '\n' :: '\n' :: B.reverse := by
    simp
  rw [h2]
  have h3 : List.dropWhile Char.isWhitespace ('\n' :: '\n' :: B.reverse) =
      B.reverse := by
    rw [List.dropWhile_cons, List.dropWhile_cons]
    simp only [show ('\n').isWhitespace = true from rfl, if_true]
    apply dropWhile_ws_eq_self
    intro c hc
    exact hl c (by rwa [List.head?_reverse] at hc)
  rw [h3, List.reverse_reverse]

theorem mem_dropWhile_of_not (p : Char → Bool) (s : Str) (c : Char)
    (hc : c ∈ s) (hp : p c = false) : c ∈ s.dropWhile p := by
  induction s with
  | nil => exact absurd hc (List.not_mem_nil c)
  | cons a t ih =>
    rw [List.dropWhile_cons]
    by_cases hpa : p a = true
    · rw [if_pos hpa]
      rcases List.mem_cons.mp hc with h | h
      · subst h
        rw [hpa] at hp
        exact absurd hp (by simp)
      · exact ih h
    · rw [if_neg hpa]
      exact hc

theorem trimStr_ne_nil {s : Str} {c : Char} (hc : c ∈ s)
    (hw : c.isWhitespace = false) : trimStr s ≠ [] := by
  unfold trimStr
  intro h
  rw [List.reverse_eq_nil_iff, List.dropWhile_eq_nil_iff] at h
  have h1 : c ∈ (s.dropWhile Char.isWhitespace).reverse := by
    rw [List.mem_reverse]
    exact mem_dropWhile_of_not _ s c hc hw
  have := h c h1
  rw [hw] at this
  exact absurd this (by simp)

/-! ## Gathering the text lines of a block -/

theorem takeWhile_append_stop (p : Str → Bool) (xs : List Str) (z : Str)
    (zs : List Str) (hx : ∀ x ∈ xs, p x = true) (hz : p z = false) :
    (xs ++ z :: zs).takeWhile p = xs ∧
    (xs ++ z :: zs).dropWhile p = z :: zs := by
  induction xs with
  | nil =>
    constructor
    · rw [List.nil_append, List.takeWhile_cons, hz]
      rfl
    · rw [List.nil_append, List.dropWhile_cons, hz]
      rfl
  | cons a t ih =>
    have ha := hx a (List.mem_cons_self a t)
    have iht := ih (fun x hxm => hx x (List.mem_cons_of_mem a hxm))
    constructor
    · rw [List.cons_append, List.takeWhile_cons, ha]
      simp only [if_true, iht.1]
    · rw [List.cons_append, List.dropWhile_cons, ha]
      simp only [if_true, iht.2]

theorem takeWhile_all (p : Str → Bool) (xs : List Str)
    (hx : ∀ x ∈ xs, p x = true) :
    xs.takeWhile p = xs ∧ xs.dropWhile p = [] :=
  ⟨List.takeWhile_eq_self_iff.mpr hx, List.dropWhile_eq_nil_iff.mpr hx⟩

/-! ## The shape of serialized output -/

/-- Millisecond-aligned, non-negative time. -/
def msAligned (q : ℚ) : Prop := ∃ n : ℕ, q = (n : ℚ) / 1000

/-- Text acceptable for an exact round trip: no blank line among its
(newline-split) lines, and no trailing whitespace. -/
abbrev goodText (t : Str) : Prop :=
  (∀ line ∈ splitOnChar '\n' t, trimStr line ≠ []) ∧
  (t.getLast?.all (fun c => !c.isWhitespace) = true)

/-- The per-segment hypotheses of the amended round-trip claim. -/
def roundTripSafe (s : Segment) : Prop :=
  msAligned s.startTime ∧ msAligned s.endTime ∧ goodText s.text

/-- The timestamp line emitted for a segment. -/
def tsLineOf (s : Segment) : Str :=
  formatSRTTimestamp s.startTime ++ arrowSep ++ formatSRTTimestamp s.endTime

/-- One serialized block without its trailing blank line. -/
def blockCore (i : ℕ) (s : Segment) : Str :=
  natToStr (i + 1) ++ '\n' :: (tsLineOf s ++ '\n' :: s.text)

/-- All serialized blocks, separated by blank lines, without the final
trailing blank line. -/
def coreBlocks (i : ℕ) : List Segment → Str
  | [] => []
  | [s] => blockCore i s
  | s :: rest => blockCore i s ++ '\n' :: '\n' :: coreBlocks (i + 1) rest

/-- The line list of the serialized output. -/
def linesOf (i : ℕ) : List Segment → List Str
  | [] => []
  | s :: rest =>
    natToStr (i + 1) :: tsLineOf s :: (splitOnChar '\n' s.text ++
      (match rest with
        | [] => []
        | _ :: _ => [] :: linesOf (i + 1) rest))

/-- The parse result of the serialized output. -/
def parsedOf (i : ℕ) : List Segment → List ParsedSeg
  | [] => []
  | s :: rest =>
    ⟨some ((i + 1 : ℕ) : ℚ), some s.startTime, some s.endTime, s.text⟩ ::
      parsedOf (i + 1) rest

theorem srtBlocks_cons (i : ℕ) (s : Segment) (rest : List Segment) :
    srtBlocks i (s :: rest) =
      blockCore i s ++ '\n' :: '\n' :: srtBlocks (i + 1) rest := by
  show natToStr (i + 1) ++ '\n' ::
      (formatSRTTimestamp s.startTime ++ arrowSep ++
        formatSRTTimestamp s.endTime ++ '\n' ::
        (s.text ++ '\n' :: '\n' :: srtBlocks (i + 1) rest)) = _
  unfold blockCore tsLineOf
  simp [List.append_assoc]

theorem srtBlocks_core (l : List Segment) : ∀ i : ℕ, l ≠ [] →
    srtBlocks i l = coreBlocks i l ++ ['\n', '\n'] := by
  induction l with
  | nil => intro i h; exact absurd rfl h
  | cons s rest ih =>
    intro i _
    rw [srtBlocks_cons]
    cases rest with
    | nil =>
      show blockCore i s ++ '\n' :: '\n' :: [] = _
      rw [show coreBlocks i [s] = blockCore i s from rfl]
    | cons r rs =>
      rw [ih (i + 1) (by simp)]
      rw [show coreBlocks i (s :: r :: rs) =
        blockCore i s ++ '\n' :: '\n' :: coreBlocks (i + 1) (r :: rs)
        from rfl]
      simp

/-! ## Character classes of emitted lines -/

theorem mem_tsChars (n : ℕ) : ∀ c ∈ tsChars n, c ∈ (digitList ++ [':', ',']) := by
  unfold tsChars
  intro c hc
  rcases List.mem_append.mp hc with h1 | h1
  · exact List.mem_append.mpr (Or.inl (pad_natToStr_digits 2 _ c h1))
  · rcases List.mem_cons.mp h1 with h2 | h2
    · subst h2; decide
    · rcases List.mem_append.mp h2 with h3 | h3
      · exact List.mem_append.mpr (Or.inl (pad_natToStr_digits 2 _ c h3))
      · rcases List.mem_cons.mp h3 with h4 | h4
        · subst h4; decide
        · rcases List.mem_append.mp h4 with h5 | h5
          · exact List.mem_append.mpr (Or.inl (pad_natToStr_digits 2 _ c h5))
          · rcases List.mem_cons.mp h5 with h6 | h6
            · subst h6; decide
            · exact List.mem_append.mpr
                (Or.inl (pad_natToStr_digits 3 _ c h6))

theorem sp_not_mem_tsChars (n : ℕ) : ' ' ∉ tsChars n := by
  intro h
  have := mem_tsChars n ' ' h
  revert this
  decide

theorem nl_not_mem_tsChars (n : ℕ) : '\n' ∉ tsChars n := by
  intro h
  have := mem_tsChars n '\n' h
  revert this
  decide

theorem nl_not_mem_natToStr (k : ℕ) : '\n' ∉ natToStr k := by
  intro h
  have := mem_natToStr k '\n' h
  revert this
  decide

theorem goodText_ne_nil {t : Str} (h : goodText t) : t ≠ [] := by
  intro h0
  subst h0
  exact h.1 [] (by rw [show splitOnChar '\n' [] = [[]] from rfl]; simp) rfl

theorem goodText_getLast {t : Str} (h : goodText t) :
    ∀ c, t.getLast? = some c → c.isWhitespace = false := by
  intro c hc
  have h2 := h.2
  rw [hc] at h2
  simpa using h2

/-! ## Line decomposition of the serialized blocks -/

theorem splitOnChar_blockCore (i : ℕ) (s : Segment)
    (hs : roundTripSafe s) :
    splitOnChar '\n' (blockCore i s) =
      natToStr (i + 1) :: tsLineOf s :: splitOnChar '\n' s.text := by
  obtain ⟨⟨n1, hst⟩, ⟨n2, hen⟩, _⟩ := hs
  unfold blockCore
  show List.splitOn _ _ = _
  rw [splitOn_append, splitOn_append,
    splitOn_no_sep (nl_not_mem_natToStr (i + 1))]
  · rw [splitOn_no_sep]
    · rfl
    · unfold tsLineOf
      rw [hst, hen, formatSRT_eq, formatSRT_eq]
      intro hmem
      rcases List.mem_append.mp hmem with h1 | h1
      · rcases List.mem_append.mp h1 with h2 | h2
        · exact nl_not_mem_tsChars n1 h2
        · revert h2; decide
      · exact nl_not_mem_tsChars n2 h1

theorem coreBlocks_lines : ∀ (l : List Segment) (i : ℕ),
    (∀ s ∈ l, roundTripSafe s) → l ≠ [] →
    splitOnChar '\n' (coreBlocks i l) = linesOf i l := by
  intro l
  induction l with
  | nil => intro i _ h; exact absurd rfl h
  | cons s rest ih =>
    intro i hsafe _
    have hs := hsafe s (List.mem_cons_self s rest)
    cases rest with
    | nil =>
      rw [show coreBlocks i [s] = blockCore i s from rfl,
        splitOnChar_blockCore i s hs]
      rw [show linesOf i [s] = natToStr (i + 1) :: tsLineOf s ::
        (splitOnChar '\n' s.text ++ []) from rfl]
      simp
    | cons r rs =>
      rw [show coreBlocks i (s :: r :: rs) =
        blockCore i s ++ '\n' :: '\n' :: coreBlocks (i + 1) (r :: rs)
        from rfl]
      show List.splitOn _ _ = _
      rw [splitOn_append]
      rw [show ('\n' :: coreBlocks (i + 1) (r :: rs)).splitOn '\n' =
        ([] ++ '\n' :: coreBlocks (i + 1) (r :: rs)).splitOn '\n' from rfl,
        splitOn_append]
      rw [show List.splitOn '\n' (blockCore i s) =
        splitOnChar '\n' (blockCore i s) from rfl,
        splitOnChar_blockCore i s hs]
      rw [show List.splitOn '\n' (coreBlocks (i + 1) (r :: rs)) =
        splitOnChar '\n' (coreBlocks (i + 1) (r :: rs)) from rfl,
        ih (i + 1) (fun x hx => hsafe x (List.mem_cons_of_mem s hx))
          (by simp)]
      rw [show linesOf i (s :: r :: rs) = natToStr (i + 1) :: tsLineOf s ::
        (splitOnChar '\n' s.text ++ [] :: linesOf (i + 1) (r :: rs))
        from rfl]
      simp

/-! ## Trimming the serialized output -/

theorem blockCore_ne_nil (i : ℕ) (s : Segment) : blockCore i s ≠ [] := by
  unfold blockCore
  intro h
  exact natToStr_ne_nil (i + 1) (List.append_eq_nil.mp h).1

theorem coreBlocks_ne_nil (i : ℕ) (l : List Segment) (h : l ≠ []) :
    coreBlocks i l ≠ [] := by
  cases l with
  | nil => exact absurd rfl h
  | cons s rest =>
    cases rest with
    | nil => exact blockCore_ne_nil i s
    | cons r rs =>
      rw [show coreBlocks i (s :: r :: rs) =
        blockCore i s ++ '\n' :: '\n' :: coreBlocks (i + 1) (r :: rs)
        from rfl]
      intro hcontra
      exact blockCore_ne_nil i s (List.append_eq_nil.mp hcontra).1

theorem getLast?_cons_of_ne_nil {α : Type} (a : α) (l : List α)
    (h : l ≠ []) : (a :: l).getLast? = l.getLast? := by
  rw [show a :: l = [a] ++ l from rfl, List.getLast?_append_of_ne_nil _ h]

theorem blockCore_head_ok (i : ℕ) (s : Segment) :
    ∀ c, (blockCore i s).head? = some c → c.isWhitespace = false := by
  intro c hc
  unfold blockCore at hc
  rw [List.head?_append_of_ne_nil _ (natToStr_ne_nil (i + 1))] at hc
  have hmem := List.mem_of_mem_head? (Option.mem_def.mpr hc)
  exact (digitList_facts c (mem_natToStr (i + 1) c hmem)).2.1

theorem coreBlocks_head_ok (i : ℕ) (l : List Segment) (h : l ≠ []) :
    ∀ c, (coreBlocks i l).head? = some c → c.isWhitespace = false := by
  cases l with
  | nil => exact absurd rfl h
  | cons s rest =>
    cases rest with
    | nil => exact blockCore_head_ok i s
    | cons r rs =>
      intro c hc
      rw [show coreBlocks i (s :: r :: rs) =
        blockCore i s ++ '\n' :: '\n' :: coreBlocks (i + 1) (r :: rs)
        from rfl,
        List.head?_append_of_ne_nil _ (blockCore_ne_nil i s)] at hc
      exact blockCore_head_ok i s c hc

theorem blockCore_last_ok (i : ℕ) (s : Segment) (h : goodText s.text) :
    ∀ c, (blockCore i s).getLast? = some c → c.isWhitespace = false := by
  intro c hc
  unfold blockCore at hc
  rw [List.getLast?_append_of_ne_nil _ (by simp)] at hc
  rw [getLast?_cons_of_ne_nil _ _ (by
    intro hx
    exact (List.cons_ne_nil _ _) (List.append_eq_nil.mp hx).2)] at hc
  rw [List.getLast?_append_of_ne_nil _
    (List.cons_ne_nil '\n' s.text)] at hc
  rw [getLast?_cons_of_ne_nil _ _ (goodText_ne_nil h)] at hc
  exact goodText_getLast h c hc

theorem coreBlocks_last_ok : ∀ (l : List Segment) (i : ℕ),
    (∀ s ∈ l, goodText s.text) → l ≠ [] →
    ∀ c, (coreBlocks i l).getLast? = some c → c.isWhitespace = false := by
  intro l
  induction l with
  | nil => intro i _ h; exact absurd rfl h
  | cons s rest ih =>
    intro i hsafe _
    cases rest with
    | nil => exact blockCore_last_ok i s (hsafe s (by simp))
    | cons r rs =>
      intro c hc
      rw [show coreBlocks i (s :: r :: rs) =
        blockCore i s ++ '\n' :: '\n' :: coreBlocks (i + 1) (r :: rs)
        from rfl,
        List.getLast?_append_of_ne_nil _ (by simp)] at hc
      rw [getLast?_cons_of_ne_nil '\n' _ (List.cons_ne_nil _ _)] at hc
      rw [getLast?_cons_of_ne_nil '\n' _
        (coreBlocks_ne_nil (i + 1) (r :: rs) (by simp))] at hc
      exact ih (i + 1) (fun x hx => hsafe x (List.mem_cons_of_mem s hx))
        (by simp) c hc

theorem trim_srtBlocks (l : List Segment) (i : ℕ)
    (hsafe : ∀ s ∈ l, roundTripSafe s) (hne : l ≠ []) :
    trimStr (srtBlocks i l) = coreBlocks i l := by
  rw [srtBlocks_core l i hne,
    show (['\n', '\n'] : Str) = ['\n', '\n'] from rfl]
  exact trimStr_append_nlnl _ (coreBlocks_head_ok i l hne)
    (coreBlocks_last_ok l i (fun s hs => (hsafe s hs).2.2) hne)
    (coreBlocks_ne_nil i l hne)

/-! ## Parsing the emitted lines -/

theorem trimStr_natToStr_ne_nil (k : ℕ) : trimStr (natToStr k) ≠ [] := by
  obtain ⟨c, hc⟩ := List.exists_mem_of_ne_nil _ (natToStr_ne_nil k)
  exact trimStr_ne_nil hc (digitList_facts c (mem_natToStr k c hc)).2.1

theorem splitOnArrow_tsLineOf (s : Segment) (h1 : msAligned s.startTime)
    (h2 : msAligned s.endTime) :
    ∃ n1 n2 : ℕ, s.startTime = (n1 : ℚ) / 1000 ∧
      s.endTime = (n2 : ℚ) / 1000 ∧
      splitOnArrow (tsLineOf s) = [tsChars n1, tsChars n2] := by
  obtain ⟨n1, hst⟩ := h1
  obtain ⟨n2, hen⟩ := h2
  refine ⟨n1, n2, hst, hen, ?_⟩
  unfold tsLineOf
  rw [hst, hen, formatSRT_eq, formatSRT_eq]
  exact splitOnArrow_append _ _ (sp_not_mem_tsChars n1) (sp_not_mem_tsChars n2)

theorem textLine_pred_true {line : Str} (h : trimStr line ≠ []) :
    (fun l => !(trimStr l).isEmpty) line = true := by
  simp only [Bool.not_eq_true']
  rw [← Bool.not_eq_true]
  intro hx
  exact h (List.isEmpty_iff.mp (by simpa using hx))

theorem parseBlocks_linesOf : ∀ (l : List Segment) (i : ℕ),
    (∀ s ∈ l, roundTripSafe s) →
    parseBlocks (linesOf i l) = some (parsedOf i l) := by
  intro l
  induction l with
  | nil => intro i _; exact parseBlocks_nil
  | cons s rest ih =>
    intro i hsafe
    have hs := hsafe s (List.mem_cons_self s rest)
    obtain ⟨n1, n2, hst, hen, harrow⟩ :=
      splitOnArrow_tsLineOf s hs.1 hs.2.1
    have hid : trimStr (natToStr (i + 1)) ≠ [] := trimStr_natToStr_ne_nil _
    have hts : (splitOnArrow (tsLineOf s)).length = 2 := by
      rw [harrow]; rfl
    have h0 : timestampToSeconds ((splitOnArrow (tsLineOf s)).headD []) =
        some (some s.startTime) := by
      rw [harrow]
      show timestampToSeconds (tsChars n1) = _
      rw [timestampToSeconds_tsChars, hst]
    have h1 : timestampToSeconds ((splitOnArrow (tsLineOf s)).getD 1 []) =
        some (some s.endTime) := by
      rw [harrow]
      show timestampToSeconds (tsChars n2) = _
      rw [timestampToSeconds_tsChars, hen]
    have htext : ∀ x ∈ splitOnChar '\n' s.text,
        (fun l => !(trimStr l).isEmpty) x = true :=
      fun x hx => textLine_pred_true (hs.2.2.1 x hx)
    cases rest with
    | nil =>
      rw [show linesOf i [s] = natToStr (i + 1) :: tsLineOf s ::
        (splitOnChar '\n' s.text ++ []) from rfl, List.append_nil]
      rw [parseBlocks_seg _ hid hts h0 h1]
      rw [(takeWhile_all _ _ htext).1, (takeWhile_all _ _ htext).2,
        parseBlocks_nil]
      show some [_] = some [_]
      rw [show List.intercalate ['\n'] (splitOnChar '\n' s.text) = s.text
        from List.intercalate_splitOn s.text '\n', jsParseInt_natToStr]
    | cons r rs =>
      rw [show linesOf i (s :: r :: rs) = natToStr (i + 1) :: tsLineOf s ::
        (splitOnChar '\n' s.text ++ [] :: linesOf (i + 1) (r :: rs))
        from rfl]
      rw [parseBlocks_seg _ hid hts h0 h1]
      have hstop := takeWhile_append_stop (fun l => !(trimStr l).isEmpty)
        (splitOnChar '\n' s.text) [] (linesOf (i + 1) (r :: rs)) htext rfl
      rw [hstop.1, hstop.2,
        @parseBlocks_blank [] (linesOf (i + 1) (r :: rs)) rfl,
        ih (i + 1) (fun x hx => hsafe x (List.mem_cons_of_mem s hx))]
      show some (_ :: _) = some (_ :: _)
      rw [show List.intercalate ['\n'] (splitOnChar '\n' s.text) = s.text
        from List.intercalate_splitOn s.text '\n', jsParseInt_natToStr]

/-! ## C1: the round-trip law -/

theorem goodText_trim_ne_nil {t : Str} (h : goodText t) : trimStr t ≠ [] := by
  have hne := goodText_ne_nil h
  have hg : t.getLast? = some (t.getLast hne) := List.getLast?_eq_getLast t hne
  exact trimStr_ne_nil (List.getLast_mem hne) (goodText_getLast h _ hg)

theorem parsedOf_triples : ∀ (l : List Segment) (i : ℕ),
    (parsedOf i l).map (fun p => (p.startTime, p.endTime, p.text)) =
      l.map (fun s =>
        ((some s.startTime : JVal), (some s.endTime : JVal), s.text)) := by
  intro l
  induction l with
  | nil => intro i; rfl
  | cons s rest ih =>
    intro i
    show _ :: _ = _ :: _
    rw [ih (i + 1)]

/-- C1 (amended): for every well-formed segment list — non-overlapping and
sorted, IDs 1-based sequential, positive-length segments — whose times are
non-negative whole milliseconds and whose texts contain no blank line and
no trailing whitespace, parsing the serialization yields segments whose
`(startTime, endTime, text)` triples equal those of the original list, in
the same order.  (The extra hypotheses are forced: sub-millisecond time
components are truncated by `formatSRTTimestamp`, and the final `trim` of
`parseSRT` eats trailing whitespace of the last text; see the
counterexample.) -/
theorem c1_round_trip (l : List Segment)
    (hchain : ∀ p ∈ l.zip l.tail, p.1.endTime ≤ p.2.startTime)
    (hids : idsDense l)
    (hpos : ∀ s ∈ l, s.startTime < s.endTime)
    (hsafe : ∀ s ∈ l, roundTripSafe s) :
    (parseSRT (segmentsToSRT l)).map
        (List.map (fun p => (p.startTime, p.endTime, p.text))) =
      some (l.map (fun s =>
        ((some s.startTime : JVal), (some s.endTime : JVal), s.text))) := by
  have hfilter : l.filter (fun s => !(trimStr s.text).isEmpty) = l :=
    List.filter_eq_self.mpr
      (fun s hsm => textLine_pred_true
        (goodText_trim_ne_nil (hsafe s hsm).2.2))
  unfold segmentsToSRT
  rw [hfilter]
  by_cases hne : l = []
  · subst hne
    show (parseSRT []).map _ = some []
    unfold parseSRT
    rw [show trimStr [] = [] from rfl,
      show splitOnChar '\n' [] = [[]] from rfl,
      @parseBlocks_blank [] [] rfl, parseBlocks_nil]
    rfl
  · unfold parseSRT
    rw [trim_srtBlocks l 0 hsafe hne, coreBlocks_lines l 0 hsafe hne,
      parseBlocks_linesOf l 0 hsafe]
    rw [Option.map_some']
    rw [parsedOf_triples l 0]

/-- C1 counterexample: the list `[{1, 0, 1, "a "}]` is well-formed in the
claim's sense (sorted, non-overlapping, dense 1-based IDs, positive
length, non-empty text), yet the round trip loses the trailing space of
the text: `parseSRT (segmentsToSRT l)` returns text `"a"`, because the
serialized output ends `"a \n\n"` and `parseSRT` trims the whole input
before splitting it into lines. -/
theorem c1_counterexample :
    (∀ p ∈ ([⟨1, 0, 1, "a ".data⟩] : List Segment).zip
      ([⟨1, 0, 1, "a ".data⟩] : List Segment).tail,
      p.1.endTime ≤ p.2.startTime) ∧
    idsDense [⟨1, 0, 1, "a ".data⟩] ∧
    (∀ s ∈ ([⟨1, 0, 1, "a ".data⟩] : List Segment),
      s.startTime < s.endTime ∧ s.text ≠ []) ∧
    (parseSRT (segmentsToSRT [⟨1, 0, 1, "a ".data⟩])).map
        (List.map ParsedSeg.text) = some ["a".data] ∧
    ¬ ((parseSRT (segmentsToSRT [⟨1, 0, 1, "a ".data⟩])).map
        (List.map (fun p => (p.startTime, p.endTime, p.text))) =
      some (([⟨1, 0, 1, "a ".data⟩] : List Segment).map (fun s =>
        ((some s.startTime : JVal), (some s.endTime : JVal), s.text)))) := by
  have hser : segmentsToSRT [⟨1, 0, 1, "a ".data⟩] =
      "1\n00:00:00,000 --> 00:00:01,000\na \n\n".data := by
    have hf0 : formatSRTTimestamp 0 = tsChars 0 := by
      rw [show (0 : ℚ) = ((0 : ℕ) : ℚ) / 1000 by norm_num, formatSRT_eq]
    have hf1 : formatSRTTimestamp 1 = tsChars 1000 := by
      rw [show (1 : ℚ) = ((1000 : ℕ) : ℚ) / 1000 by norm_num, formatSRT_eq]
    show srtBlocks 0 (List.filter _ _) = _
    rw [show List.filter (fun s => !(trimStr s.text).isEmpty)
      [(⟨1, 0, 1, "a ".data⟩ : Segment)] = [⟨1, 0, 1, "a ".data⟩] by decide]
    show natToStr 1 ++ '\n' ::
      (formatSRTTimestamp 0 ++ arrowSep ++ formatSRTTimestamp 1 ++ '\n' ::
        ("a ".data ++ '\n' :: '\n' :: srtBlocks 1 [])) = _
    rw [hf0, hf1]
    decide
  have hlines : splitOnChar '\n'
      (trimStr "1\n00:00:00,000 --> 00:00:01,000\na \n\n".data) =
      ["1".data, "00:00:00,000 --> 00:00:01,000".data, "a".data] := by
    decide
  have harr : splitOnArrow "00:00:00,000 --> 00:00:01,000".data =
      ["00:00:00,000".data, "00:00:01,000".data] := by decide
  have ht0 : timestampToSeconds
      ((splitOnArrow "00:00:00,000 --> 00:00:01,000".data).headD []) =
      some (some (((0 : ℕ) : ℚ) / 1000)) := by
    rw [harr]
    show timestampToSeconds (tsChars 0) = _
    exact timestampToSeconds_tsChars 0
  have ht1 : timestampToSeconds
      ((splitOnArrow "00:00:00,000 --> 00:00:01,000".data).getD 1 []) =
      some (some (((1000 : ℕ) : ℚ) / 1000)) := by
    rw [harr]
    show timestampToSeconds (tsChars 1000) = _
    exact timestampToSeconds_tsChars 1000
  have hparse : parseSRT "1\n00:00:00,000 --> 00:00:01,000\na \n\n".data =
      some [⟨some 1, some (((0 : ℕ) : ℚ) / 1000),
        some (((1000 : ℕ) : ℚ) / 1000), "a".data⟩] := by
    unfold parseSRT
    rw [hlines]
    rw [parseBlocks_seg ["a".data] (by decide) (by decide) ht0 ht1]
    rw [show List.dropWhile (fun l => !List.isEmpty (trimStr l))
      ["a".data] = [] by decide, parseBlocks_nil]
    rw [show List.takeWhile (fun l => !List.isEmpty (trimStr l))
      ["a".data] = ["a".data] by decide]
    rw [show jsParseInt "1".data = some 1 by decide]
    rfl
  refine ⟨by decide, by decide, by decide, ?_, ?_⟩
  · rw [hser, hparse]
    rfl
  · rw [hser, hparse]
    intro h
    rw [Option.map_some'] at h
    have h3 := congrArg (Option.map (List.map (fun tr :
      JVal × JVal × Str => tr.2.2))) h
    simp only [Option.map_some', List.map_map, List.map_cons,
      List.map_nil, Function.comp] at h3
    exact absurd h3 (by decide)

/-- Witness for `c1_round_trip` on `[{1, 0, 1, "hi"}]`. -/
theorem c1_round_trip_witness :
    idsDense [⟨1, 0, 1, "hi".data⟩] ∧
    (parseSRT (segmentsToSRT [⟨1, 0, 1, "hi".data⟩])).map
        (List.map (fun p => (p.startTime, p.endTime, p.text))) =
      some (([⟨1, 0, 1, "hi".data⟩] : List Segment).map (fun s =>
        ((some s.startTime : JVal), (some s.endTime : JVal), s.text))) :=
  ⟨by decide,
    c1_round_trip [⟨1, 0, 1, "hi".data⟩] (by decide) (by decide) (by decide)
      (by
        intro s hs
        rw [List.mem_singleton] at hs
        subst hs
        exact ⟨⟨0, by norm_num⟩, ⟨1000, by norm_num⟩, by decide⟩)⟩
